import Mathlib

/-!
Verification of the `sc::vector` dynamic-array container (`vector.h`).

The C++ class template `sc::vector<T>` stores three members: `m_end` (the
logical length), `m_capacity` (the allocated slot count) and `m_storage`
(a raw owned buffer of `m_capacity` slots).  We embed a vector state as a
structure holding those three members, with the buffer as a `List α` whose
length is `m_capacity`; slots in `[m_end, m_capacity)` are allocated but
logically dead.  Every member function is translated loop-for-loop below.

`size_type` is `unsigned long` (64 bits).  Index arithmetic is modelled on
`Nat`, with an explicit `% 2^64` in the one place where unsigned wraparound
is reachable: the backward shifting loop of the range `insert` overload,
whose loop variable underflows below zero when the insertion index is 0.
There, element accesses are bounds-checked and the function returns
`Option`, with `none` marking the undefined behaviour (out-of-bounds
access) that the C++ would exhibit.  Everywhere else all accesses are
in bounds whenever the documented preconditions hold, so the buffer is
read with `List.getD` and written with `List.set`.
-/

namespace sc

/-- `2^64`, the modulus of the C++ `size_type` (`unsigned long`). -/
def U64 : Nat := 18446744073709551616

variable {α : Type}

/-- State of an `sc::vector<T>`: the members `m_end` (current size),
`m_capacity` (storage capacity) and `m_storage` (the data buffer, one list
entry per allocated slot). -/
structure Vec (α : Type) where
  m_end : Nat
  m_capacity : Nat
  m_storage : List α
deriving DecidableEq

/-- The reachable-state invariant of claim C3: `0 ≤ length ≤ capacity`.
The lower bound is inherent in `Nat`. -/
def Inv (v : Vec α) : Prop := v.m_end ≤ v.m_capacity

/-- Well-formedness of a vector state: the buffer really has `m_capacity`
slots, and the length/capacity invariant holds. -/
def Wf (v : Vec α) : Prop :=
  v.m_storage.length = v.m_capacity ∧ v.m_end ≤ v.m_capacity

instance (v : Vec α) : Decidable (Inv v) := by unfold Inv; infer_instance

instance (v : Vec α) : Decidable (Wf v) := by unfold Wf; infer_instance

/-- `size()`: returns `m_end`. -/
def size (v : Vec α) : Nat := v.m_end

/-- `capacity()`: returns `m_capacity`. -/
def capacity (v : Vec α) : Nat := v.m_capacity

/-- `empty()`: returns `m_end == 0`. -/
def empty (v : Vec α) : Bool := v.m_end == 0

/-- The sized constructor `vector(size_type cp = 0)`:
`m_storage = new T[cp]; m_capacity = cp; m_end = cp;`.
The fresh buffer holds `cp` default-constructed elements. -/
def mkVec (α : Type) [Inhabited α] (cp : Nat) : Vec α :=
  ⟨cp, cp, List.replicate cp default⟩

/-- The initializer-list constructor: capacity and length are the list's
size and the elements are copied into the fresh buffer, so the buffer's
contents are exactly the list. -/
def fromList (il : List α) : Vec α := ⟨il.length, il.length, il⟩

/-- The iterator-range constructor `vector(first, last)`: sizes to
`std::distance(first, last)` and copies the range; the range is modelled
as the list of elements it denotes. -/
def fromRange (xs : List α) : Vec α := ⟨xs.length, xs.length, xs⟩

/-- A forward copying loop `for (i = 0; i < n; ++i) dst[di + i] = src[si + i];`
(also covers `std::copy(first, last, dst)` with `src` the source sequence).
Reads come from the fixed list `src`, writes go into `dst`. -/
def copyRange [Inhabited α] (src : List α) : List α → Nat → Nat → Nat → List α
  | dst, _, _, 0 => dst
  | dst, si, di, n+1 => copyRange src (dst.set di (src.getD si default)) (si+1) (di+1) n

/-- `std::move(src-range, dst)` within one buffer: a forward loop
`for (i = 0; i < n; ++i) s[di + i] = s[si + i];` threading the buffer through
each write (source and destination may overlap). -/
def moveRange [Inhabited α] : List α → Nat → Nat → Nat → List α
  | s, _, _, 0 => s
  | s, si, di, n+1 => moveRange (s.set di (s.getD si default)) (si+1) (di+1) n

/-- The backward shifting loop of single-element `insert`:
`for (i = m_end; i > index; --i) s[i] = s[i - 1];`.
The second `Nat` argument is the current loop variable. -/
def shiftUp [Inhabited α] (index : Nat) : List α → Nat → List α
  | s, 0 => s
  | s, i+1 => if index < i+1 then shiftUp index (s.set (i+1) (s.getD i default)) i else s

/-- The fill loop of `assign`: `for (i = 0; i < n; ++i) s[start + i] = value;`. -/
def fillRange : α → List α → Nat → Nat → List α
  | _, s, _, 0 => s
  | value, s, i, n+1 => fillRange value (s.set i value) (i+1) n

/-- The backward shifting loop of the range `insert` overload:
`for (size_type i = m_end - 1; i >= index; --i) m_storage[i + k] = m_storage[i];`.
The loop variable `i` is an `unsigned long`, so `--i` past zero wraps to
`2^64 - 1` and the guard `i >= index` never fails when `index == 0`.
Both element accesses are bounds-checked; an out-of-range access is the
C++ undefined behaviour and yields `none`.  The last argument is fuel,
always sufficient because an out-of-bounds access is reached as soon as
the loop variable wraps. -/
def shiftDownLoop (index k : Nat) : List α → Nat → Nat → Option (List α)
  | _, _, 0 => none
  | s, i, fuel+1 =>
    if index ≤ i then
      if h : i < s.length then
        let w := (i + k) % U64
        if w < s.length then
          shiftDownLoop index k (s.set w (s.get ⟨i, h⟩)) ((i + (U64 - 1)) % U64) fuel
        else none
      else none
    else some s

/-- `push_back(value)`: when `m_end == m_capacity`, reallocate to
`(m_capacity == 0) ? 1 : 2 * m_capacity` and copy the live elements across;
then write `value` at slot `m_end` and increment `m_end`.  The trailing
append is written in both branches of the reallocation test. -/
def push_back [Inhabited α] (v : Vec α) (value : α) : Vec α :=
  if v.m_end = v.m_capacity then
    let new_capacity := if v.m_capacity = 0 then 1 else 2 * v.m_capacity
    let new_storage := copyRange v.m_storage (List.replicate new_capacity default) 0 0 v.m_end
    ⟨v.m_end + 1, new_capacity, new_storage.set v.m_end value⟩
  else
    ⟨v.m_end + 1, v.m_capacity, v.m_storage.set v.m_end value⟩

/-- `pop_back()`: decrement `m_end` if it is positive, otherwise no-op. -/
def pop_back (v : Vec α) : Vec α :=
  if 0 < v.m_end then ⟨v.m_end - 1, v.m_capacity, v.m_storage⟩ else v

/-- `clear()`: set `m_end` to 0; storage and capacity are retained
(the deallocating statements in the source are commented out). -/
def clear (v : Vec α) : Vec α := ⟨0, v.m_capacity, v.m_storage⟩

/-- Single-element `insert(pos, value)`; `index = pos - begin()`.
If full, reallocate to `(m_capacity == 0) ? 1 : 2 * m_capacity`, copying the
prefix `[0, index)`, placing `value` at `index`, and copying `[index, m_end)`
shifted up by one.  Otherwise shift `[index, m_end)` up by one in place
(from the top) and place `value` at `index`.  Returns the new state and the
returned iterator's offset from `begin()` (which is `index` in both
branches) . -/
def insert [Inhabited α] (v : Vec α) (index : Nat) (value : α) : Vec α × Nat :=
  if v.m_end = v.m_capacity then
    let new_capacity := if v.m_capacity = 0 then 1 else 2 * v.m_capacity
    let s0 := List.replicate new_capacity (default : α)
    let s1 := copyRange v.m_storage s0 0 0 index
    let s2 := s1.set index value
    let s3 := copyRange v.m_storage s2 index (index + 1) (v.m_end - index)
    (⟨v.m_end + 1, new_capacity, s3⟩, index)
  else
    let s1 := shiftUp index v.m_storage v.m_end
    let s2 := s1.set index value
    (⟨v.m_end + 1, v.m_capacity, s2⟩, index)

/-- Range `insert(pos, first, last)`; `index = pos - begin()`, the inserted
range is the list `xs` and `num_elements = std::distance(first, last)`.
When `m_end + num_elements > m_capacity`, reallocate to exactly
`m_capacity + num_elements`, copy prefix, new elements and shifted suffix
into the fresh buffer.  Otherwise run the backward shifting loop
(`shiftDownLoop`, which hits undefined behaviour when `index == 0`) and then
`std::copy` the new elements over `[index, index + num_elements)`.
Returns `none` when the shifting loop runs into undefined behaviour. -/
def insertBulk [Inhabited α] (v : Vec α) (index : Nat) (xs : List α) : Option (Vec α × Nat) :=
  let num_elements := xs.length
  if v.m_capacity < v.m_end + num_elements then
    let new_capacity := v.m_capacity + num_elements
    let s0 := List.replicate new_capacity (default : α)
    let s1 := copyRange v.m_storage s0 0 0 index
    let s2 := copyRange xs s1 0 index num_elements
    let s3 := copyRange v.m_storage s2 index (index + num_elements) (v.m_end - index)
    some (⟨v.m_end + num_elements, new_capacity, s3⟩, index)
  else
    match shiftDownLoop index num_elements v.m_storage ((v.m_end + (U64 - 1)) % U64) (v.m_end + 2) with
    | none => none
    | some s1 => some (⟨v.m_end + num_elements, v.m_capacity, copyRange xs s1 0 index num_elements⟩, index)

/-- `reserve(new_capacity)`: if larger than the current capacity, reallocate
to exactly `new_capacity` and copy the live elements; otherwise no-op. -/
def reserve [Inhabited α] (v : Vec α) (new_capacity : Nat) : Vec α :=
  if v.m_capacity < new_capacity then
    ⟨v.m_end, new_capacity, copyRange v.m_storage (List.replicate new_capacity default) 0 0 v.m_end⟩
  else v

/-- `shrink_to_fit()`: if `m_end < m_capacity`, reallocate to exactly
`m_end`; otherwise no-op. -/
def shrink_to_fit [Inhabited α] (v : Vec α) : Vec α :=
  if v.m_end < v.m_capacity then
    ⟨v.m_end, v.m_end, copyRange v.m_storage (List.replicate v.m_end default) 0 0 v.m_end⟩
  else v

/-- `assign(count, value)`: reallocate to exactly `count` if
`count > m_capacity` (copying the old live elements first, as the source
does), set `m_end = count`, then fill `[0, count)` with `value`. -/
def assign [Inhabited α] (v : Vec α) (count : Nat) (value : α) : Vec α :=
  let w :=
    if v.m_capacity < count then
      ⟨v.m_end, count, copyRange v.m_storage (List.replicate count default) 0 0 v.m_end⟩
    else v
  ⟨count, w.m_capacity, fillRange value w.m_storage 0 count⟩

/-- `erase(pos)` (single element); `pos` is the offset from `begin()`.
`std::move(pos + 1, end(), pos)` shifts the suffix left by one, `m_end` is
decremented, and the value returned by `std::move` — the destination
iterator advanced by the number of moved elements, i.e. the new end — is
returned.  The second component is that returned iterator's offset. -/
def erase [Inhabited α] (v : Vec α) (pos : Nat) : Vec α × Nat :=
  let newEnd := pos + (v.m_end - (pos + 1))
  (⟨v.m_end - 1, v.m_capacity, moveRange v.m_storage (pos + 1) pos (v.m_end - (pos + 1))⟩, newEnd)

/-- `erase(first, last)` (range); offsets from `begin()`.
`std::move(last, end(), first)` shifts `[last, m_end)` down onto `first`,
`m_end` drops by `last - first`, and the value returned by `std::move` is
returned. -/
def eraseRange [Inhabited α] (v : Vec α) (first last : Nat) : Vec α × Nat :=
  let numElementsToRemove := last - first
  let moved := moveRange v.m_storage last first (v.m_end - last)
  (⟨v.m_end - numElementsToRemove, v.m_capacity, moved⟩, first + (v.m_end - last))

/-- The friend `swap(first, second)`: exchanges `m_end`, `m_capacity` and
the storage buffers of the two vectors. -/
def swapVec (first second : Vec α) : Vec α × Vec α :=
  (⟨second.m_end, second.m_capacity, second.m_storage⟩,
   ⟨first.m_end, first.m_capacity, first.m_storage⟩)

/-- `at(idx)`: throws `std::out_of_range("Index out of range")` when
`idx >= m_end`, otherwise returns `m_storage[idx]`.  The result is paired
with the post-call state, which the member function leaves untouched on
both paths. -/
def atIdx [Inhabited α] (v : Vec α) (idx : Nat) : Except String α × Vec α :=
  if v.m_end ≤ idx then (Except.error "Index out of range", v)
  else (Except.ok (v.m_storage.getD idx default), v)

/-- The element-comparison loop of `operator==`:
`for (i = 0; i < n; ++i) if (lhs[i] != rhs[i]) return false; return true;`,
starting at offset `i` with `n` comparisons left. -/
def eqLoop [Inhabited α] [DecidableEq α] (x y : List α) : Nat → Nat → Bool
  | _, 0 => true
  | i, n+1 => if x.getD i default ≠ y.getD i default then false else eqLoop x y (i+1) n

/-- `operator==(lhs, rhs)`: false if the sizes differ, otherwise compare
the elements of `[0, size)` pairwise. -/
def vecEq [Inhabited α] [DecidableEq α] (lhs rhs : Vec α) : Bool :=
  if lhs.m_end ≠ rhs.m_end then false
  else eqLoop lhs.m_storage rhs.m_storage 0 lhs.m_end

/-- The copy constructor `vector(const vector& other)` viewed purely through
vector states: fresh buffer of `other.m_capacity` default slots, then the
copy loop over `[0, other.m_end)`.  (Buffer identity, which the functional
state cannot express, is treated in the heap model below.) -/
def copyOf [Inhabited α] (other : Vec α) : Vec α :=
  ⟨other.m_end, other.m_capacity,
   copyRange other.m_storage (List.replicate other.m_capacity default) 0 0 other.m_end⟩

/-! ### Heap model for buffer identity

The functional `Vec` state cannot express which buffer a vector owns, so
deep-copy isolation (the copy writes into a *freshly allocated* buffer and
later writes through the copy cannot reach the source) is stated over a
small allocator model: buffers are identified by allocation ids, a heap
maps ids to buffer contents, and `new T[n]` hands out the next unused id. -/

/-- The three members of an `sc::vector` with the raw `m_storage` pointer
abstracted to a buffer id. -/
structure VecRef where
  m_end : Nat
  m_capacity : Nat
  m_storage : Nat
deriving DecidableEq

/-- An allocator state: ids below `next` are allocated; `buf` gives each
buffer's contents. -/
structure Heap (α : Type) where
  next : Nat
  buf : Nat → List α

/-- A vector reference is well formed in a heap when its buffer was
actually allocated there and the length/capacity invariant holds. -/
def HWf (h : Heap α) (v : VecRef) : Prop :=
  v.m_storage < h.next ∧ v.m_end ≤ v.m_capacity

/-- The observable element sequence of a vector: the buffer slots
`[0, m_end)`. -/
def contentOf [Inhabited α] (h : Heap α) (v : VecRef) : List α :=
  (List.range v.m_end).map fun i => (h.buf v.m_storage).getD i default

/-- The copy constructor `vector(const vector& other)`: copy the members,
allocate a fresh buffer of `other.m_capacity` slots (`new T[m_capacity]`),
and run the copy loop over `[0, m_end)`. -/
def copyCtor [Inhabited α] (h : Heap α) (other : VecRef) : Heap α × VecRef :=
  let id := h.next
  let copied := copyRange (h.buf other.m_storage)
    (List.replicate other.m_capacity (default : α)) 0 0 other.m_end
  (⟨h.next + 1, fun j => if j = id then copied else h.buf j⟩,
   ⟨other.m_end, other.m_capacity, id⟩)

/-- `operator=(const vector& other)`: the guard `this != &other` is the
`isSelf` flag (a pointer comparison of the two objects, which the
embedding receives as a fact).  When the objects differ, the old buffer is
released (`delete[] m_storage`), a fresh one of `other.m_capacity` slots is
allocated, and the copy loop runs; the function returns `*this`, i.e. the
updated reference.  When `isSelf` holds, nothing at all is executed. -/
def copyAssign [Inhabited α] (h : Heap α) (this_ other : VecRef) (isSelf : Bool) :
    Heap α × VecRef :=
  if isSelf then (h, this_)
  else
    let h0 : Heap α := ⟨h.next, fun j => if j = this_.m_storage then [] else h.buf j⟩
    let id := h0.next
    let copied := copyRange (h0.buf other.m_storage)
      (List.replicate other.m_capacity (default : α)) 0 0 other.m_end
    (⟨h0.next + 1, fun j => if j = id then copied else h0.buf j⟩,
     ⟨other.m_end, other.m_capacity, id⟩)

/-- A single element write `v[i] = x` through `operator[]`/`at`: mutates
slot `i` of the buffer owned by `v`. -/
def writeElem (h : Heap α) (v : VecRef) (i : Nat) (x : α) : Heap α :=
  ⟨h.next, fun j => if j = v.m_storage then (h.buf v.m_storage).set i x else h.buf j⟩

/-- A sequence of element writes through `v`. -/
def applyWrites (h : Heap α) (v : VecRef) : List (Nat × α) → Heap α
  | [] => h
  | (i, x) :: ws => applyWrites (writeElem h v i x) v ws

/-- A tiny concrete heap used to exercise the heap-model theorems: one
allocated buffer (id 0) holding `[5, 6, 0]`. -/
def demoHeap : Heap Nat := ⟨1, fun i => if i = 0 then [5, 6, 0] else []⟩

/-- A vector of length 2, capacity 3, owning buffer 0 of `demoHeap`. -/
def demoRef : VecRef := ⟨2, 3, 0⟩

/-- A second vector object (assignment target), owning a different buffer. -/
def demoRefB : VecRef := ⟨0, 0, 1⟩

/-! ### Characterizations of the copy/shift loops -/

theorem getD_set_self (l : List α) (i : Nat) (a d : α) (h : i < l.length) :
    (l.set i a).getD i d = a := by
  simp [List.getD_eq_getElem?_getD, List.getElem?_set, h]

theorem getD_set_ne (l : List α) (a d : α) {i j : Nat} (h : i ≠ j) :
    (l.set i a).getD j d = l.getD j d := by
  simp [List.getD_eq_getElem?_getD, List.getElem?_set, h]

theorem getD_replicate (n i : Nat) (a d : α) :
    (List.replicate n a).getD i d = if i < n then a else d := by
  simp only [List.getD_eq_getElem?_getD, List.getElem?_replicate]
  split <;> rfl

theorem copyRange_length [Inhabited α] (src : List α) (dst : List α) (si di n : Nat) :
    (copyRange src dst si di n).length = dst.length := by
  induction n generalizing dst si di with
  | zero => rfl
  | succ n ih => rw [copyRange, ih, List.length_set]

theorem copyRange_getD [Inhabited α] (src : List α) (dst : List α) (si di n : Nat)
    (hb : di + n ≤ dst.length) (j : Nat) :
    (copyRange src dst si di n).getD j default =
      if di ≤ j ∧ j < di + n then src.getD (si + (j - di)) default
      else dst.getD j default := by
  induction n generalizing dst si di with
  | zero => rw [copyRange, if_neg (by omega)]
  | succ n ih =>
    rw [copyRange, ih _ _ _ (by rw [List.length_set]; omega)]
    by_cases hj : di + 1 ≤ j ∧ j < di + 1 + n
    · rw [if_pos hj, if_pos (by omega)]
      have harith : si + 1 + (j - (di + 1)) = si + (j - di) := by omega
      rw [harith]
    · rw [if_neg hj]
      by_cases hdj : j = di
      · subst hdj
        rw [if_pos (by omega), getD_set_self _ _ _ _ (by omega)]
        simp
      · rw [getD_set_ne _ _ _ (by omega), if_neg (by omega)]

theorem moveRange_length [Inhabited α] (s : List α) (si di n : Nat) :
    (moveRange s si di n).length = s.length := by
  induction n generalizing s si di with
  | zero => rfl
  | succ n ih => rw [moveRange, ih, List.length_set]

theorem moveRange_getD [Inhabited α] (s : List α) (si di n : Nat)
    (hlt : di < si) (hb : di + n ≤ s.length) (j : Nat) :
    (moveRange s si di n).getD j default =
      if di ≤ j ∧ j < di + n then s.getD (si + (j - di)) default
      else s.getD j default := by
  induction n generalizing s si di with
  | zero => rw [moveRange, if_neg (by omega)]
  | succ n ih =>
    rw [moveRange, ih _ _ _ (by omega) (by rw [List.length_set]; omega)]
    by_cases hj : di + 1 ≤ j ∧ j < di + 1 + n
    · rw [if_pos hj, if_pos (by omega)]
      have harith : si + 1 + (j - (di + 1)) = si + (j - di) := by omega
      rw [harith, getD_set_ne _ _ _ (by omega)]
    · rw [if_neg hj]
      by_cases hdj : j = di
      · subst hdj
        rw [if_pos (by omega), getD_set_self _ _ _ _ (by omega)]
        simp
      · rw [getD_set_ne _ _ _ (by omega), if_neg (by omega)]

theorem shiftUp_length [Inhabited α] (index : Nat) (s : List α) (i : Nat) :
    (shiftUp index s i).length = s.length := by
  induction i generalizing s with
  | zero => rfl
  | succ i ih =>
    rw [shiftUp]
    split
    · rw [ih, List.length_set]
    · rfl

theorem shiftUp_getD [Inhabited α] (index : Nat) (s : List α) (i : Nat)
    (hb : i < s.length) (j : Nat) :
    (shiftUp index s i).getD j default =
      if index < j ∧ j ≤ i then s.getD (j - 1) default
      else s.getD j default := by
  induction i generalizing s with
  | zero => rw [shiftUp, if_neg (by omega)]
  | succ i ih =>
    rw [shiftUp]
    by_cases hc : index < i + 1
    · rw [if_pos hc, ih _ (by rw [List.length_set]; omega)]
      by_cases hj : index < j ∧ j ≤ i
      · rw [if_pos hj, if_pos (by omega), getD_set_ne _ _ _ (by omega)]
      · rw [if_neg hj]
        by_cases hji : j = i + 1
        · subst hji
          rw [if_pos (by omega), getD_set_self _ _ _ _ hb]
          simp
        · rw [getD_set_ne _ _ _ (by omega), if_neg (by omega)]
    · rw [if_neg hc, if_neg (by omega)]

theorem eqLoop_eq_true [Inhabited α] [DecidableEq α] (x y : List α) (n i : Nat)
    (h : ∀ t, t < n → x.getD (i + t) default = y.getD (i + t) default) :
    eqLoop x y i n = true := by
  induction n generalizing i with
  | zero => rfl
  | succ n ih =>
    have h0 := h 0 (by omega)
    simp only [Nat.add_zero] at h0
    rw [eqLoop, if_neg (not_not_intro h0)]
    exact ih (i + 1) fun t ht => by
      have hh := h (t + 1) (by omega)
      rwa [show i + (t + 1) = i + 1 + t by omega] at hh

/-! ### Field-level facts about the operations -/

theorem push_back_m_end [Inhabited α] (v : Vec α) (x : α) :
    (push_back v x).m_end = v.m_end + 1 := by
  unfold push_back
  split <;> rfl

theorem push_back_capacity_full [Inhabited α] (v : Vec α) (x : α) (h : v.m_end = v.m_capacity) :
    (push_back v x).m_capacity = if v.m_capacity = 0 then 1 else 2 * v.m_capacity := by
  unfold push_back
  rw [if_pos h]

theorem push_back_Inv [Inhabited α] (v : Vec α) (x : α) (h : Inv v) : Inv (push_back v x) := by
  unfold Inv at *
  unfold push_back
  split
  · dsimp only
    split <;> omega
  · dsimp only
    rename_i hne
    omega

theorem push_back_Wf [Inhabited α] (v : Vec α) (x : α) (h : Wf v) : Wf (push_back v x) := by
  obtain ⟨hlen, hle⟩ := h
  unfold push_back
  split
  · rename_i hfull
    refine ⟨?_, ?_⟩
    · dsimp only
      rw [List.length_set, copyRange_length, List.length_replicate]
    · dsimp only
      split <;> omega
  · rename_i hne
    exact ⟨by dsimp only; rw [List.length_set]; exact hlen, by dsimp only; omega⟩

theorem foldl_push_back [Inhabited α] (xs : List α) (v : Vec α) (h : Inv v) :
    Inv (List.foldl push_back v xs) ∧
      (List.foldl push_back v xs).m_end = v.m_end + xs.length := by
  induction xs generalizing v with
  | nil => exact ⟨h, by simp⟩
  | cons x xs ih =>
    obtain ⟨ha, hb⟩ := ih (push_back v x) (push_back_Inv v x h)
    refine ⟨by simpa using ha, ?_⟩
    simp only [List.foldl_cons, List.length_cons]
    rw [hb, push_back_m_end]
    omega

theorem insert_m_end [Inhabited α] (v : Vec α) (i : Nat) (x : α) :
    (insert v i x).1.m_end = v.m_end + 1 := by
  unfold insert
  split <;> rfl

theorem insert_snd [Inhabited α] (v : Vec α) (i : Nat) (x : α) :
    (insert v i x).2 = i := by
  unfold insert
  split <;> rfl

theorem insert_Inv [Inhabited α] (v : Vec α) (i : Nat) (x : α) (h : Inv v) :
    Inv (insert v i x).1 := by
  unfold Inv at *
  unfold insert
  split
  · dsimp only
    rename_i hfull
    split <;> omega
  · dsimp only
    rename_i hne
    omega

theorem insert_Wf [Inhabited α] (v : Vec α) (i : Nat) (x : α) (h : Wf v) :
    Wf (insert v i x).1 := by
  obtain ⟨hlen, hle⟩ := h
  unfold insert
  split
  · rename_i hfull
    refine ⟨?_, ?_⟩
    · dsimp only
      rw [copyRange_length, List.length_set, copyRange_length, List.length_replicate]
    · dsimp only
      split <;> omega
  · rename_i hne
    refine ⟨?_, ?_⟩
    · dsimp only
      rw [List.length_set, shiftUp_length]
      exact hlen
    · dsimp only
      omega

theorem insert_getD [Inhabited α] (v : Vec α) (i : Nat) (x : α)
    (hw : Wf v) (hi : i ≤ v.m_end) (j : Nat) (hj : j ≤ v.m_end) :
    (insert v i x).1.m_storage.getD j default =
      if j < i then v.m_storage.getD j default
      else if j = i then x
      else v.m_storage.getD (j - 1) default := by
  obtain ⟨hlen, hle⟩ := hw
  unfold insert
  split
  · rename_i hfull
    dsimp only
    have hncap : v.m_end < (if v.m_capacity = 0 then 1 else 2 * v.m_capacity) := by
      split <;> omega
    have hlen1 :
        (copyRange v.m_storage (List.replicate (if v.m_capacity = 0 then 1 else 2 * v.m_capacity)
          (default : α)) 0 0 i).length =
          (if v.m_capacity = 0 then 1 else 2 * v.m_capacity) := by
      rw [copyRange_length, List.length_replicate]
    rw [copyRange_getD _ _ _ _ _ (by rw [List.length_set, hlen1]; omega)]
    by_cases hjs : i + 1 ≤ j ∧ j < i + 1 + (v.m_end - i)
    · rw [if_pos hjs, if_neg (by omega), if_neg (by omega)]
      have harith : i + (j - (i + 1)) = j - 1 := by omega
      rw [harith]
    · rw [if_neg hjs]
      by_cases hji : j = i
      · subst hji
        rw [getD_set_self _ _ _ _ (by rw [hlen1]; omega), if_neg (by omega), if_pos rfl]
      · have hjlt : j < i := by omega
        rw [getD_set_ne _ _ _ (by omega)]
        rw [copyRange_getD _ _ _ _ _ (by rw [List.length_replicate]; omega)]
        rw [if_pos (by omega), if_pos hjlt]
        simp
  · rename_i hne
    dsimp only
    by_cases hji : j = i
    · subst hji
      rw [getD_set_self _ _ _ _ (by rw [shiftUp_length]; omega), if_neg (by omega), if_pos rfl]
    · rw [getD_set_ne _ _ _ (by omega)]
      rw [shiftUp_getD _ _ _ (by omega)]
      by_cases hjw : i < j ∧ j ≤ v.m_end
      · rw [if_pos hjw, if_neg (by omega), if_neg hji]
      · rw [if_neg hjw, if_pos (by omega)]

theorem erase_m_end [Inhabited α] (v : Vec α) (pos : Nat) :
    (erase v pos).1.m_end = v.m_end - 1 := rfl

theorem erase_capacity [Inhabited α] (v : Vec α) (pos : Nat) :
    (erase v pos).1.m_capacity = v.m_capacity := rfl

theorem erase_snd [Inhabited α] (v : Vec α) (pos : Nat) :
    (erase v pos).2 = pos + (v.m_end - (pos + 1)) := rfl

theorem erase_Wf [Inhabited α] (v : Vec α) (pos : Nat) (h : Wf v) : Wf (erase v pos).1 := by
  obtain ⟨hlen, hle⟩ := h
  refine ⟨?_, by dsimp only [erase]; omega⟩
  dsimp only [erase]
  rw [moveRange_length]
  exact hlen

theorem erase_getD [Inhabited α] (v : Vec α) (pos : Nat)
    (hw : Wf v) (hp : pos < v.m_end) (j : Nat) :
    (erase v pos).1.m_storage.getD j default =
      if pos ≤ j ∧ j < v.m_end - 1 then v.m_storage.getD (j + 1) default
      else v.m_storage.getD j default := by
  obtain ⟨hlen, hle⟩ := hw
  dsimp only [erase]
  rw [moveRange_getD _ _ _ _ (by omega) (by omega)]
  by_cases hjw : pos ≤ j ∧ j < pos + (v.m_end - (pos + 1))
  · rw [if_pos hjw, if_pos (by omega)]
    have harith : pos + 1 + (j - pos) = j + 1 := by omega
    rw [harith]
  · rw [if_neg hjw, if_neg (by omega)]

theorem applyWrites_buf_ne (v : VecRef) (b : Nat) (hne : b ≠ v.m_storage) :
    ∀ (ws : List (Nat × α)) (h : Heap α), (applyWrites h v ws).buf b = h.buf b := by
  intro ws
  induction ws with
  | nil => intro h; rfl
  | cons p ws ih =>
    intro h
    obtain ⟨i, x⟩ := p
    rw [applyWrites, ih]
    simp [writeElem, hne]

theorem contentOf_congr [Inhabited α] (h1 h2 : Heap α) (v : VecRef)
    (hbuf : h1.buf v.m_storage = h2.buf v.m_storage) :
    contentOf h1 v = contentOf h2 v := by
  unfold contentOf
  rw [hbuf]

/-! ### The claims -/

/-- Claim C1: `push_back` on a full vector (`length == capacity`) reallocates
to `max(1, 2 * old_capacity)` and then appends the value at the old length;
starting from the empty vector, three pushes give capacities 1, 2, 4 and
length 3; and after any sequence of pushes from empty the capacity is at
least the number of pushed elements. -/
theorem push_back_doubling_growth (α : Type) [Inhabited α] :
    (∀ (v : Vec α) (x : α), v.m_end = v.m_capacity →
        (push_back v x).m_capacity = max 1 (2 * v.m_capacity) ∧
        (push_back v x).m_end = v.m_end + 1 ∧
        (push_back v x).m_storage.getD v.m_end default = x) ∧
    (∀ x y z : α,
        (push_back (mkVec α 0) x).m_capacity = 1 ∧
        (push_back (push_back (mkVec α 0) x) y).m_capacity = 2 ∧
        (push_back (push_back (push_back (mkVec α 0) x) y) z).m_capacity = 4 ∧
        (push_back (push_back (push_back (mkVec α 0) x) y) z).m_end = 3) ∧
    (∀ xs : List α, xs.length ≤ (List.foldl push_back (mkVec α 0) xs).m_capacity) := by
  refine ⟨?_, fun x y z => ⟨rfl, rfl, rfl, rfl⟩, ?_⟩
  · intro v x h
    refine ⟨?_, push_back_m_end v x, ?_⟩
    · rw [push_back_capacity_full v x h]
      rcases Nat.eq_zero_or_pos v.m_capacity with h0 | h0
      · rw [if_pos h0, h0]
        simp
      · rw [if_neg (by omega)]
        exact (Nat.max_eq_right (by omega)).symm
    · unfold push_back
      rw [if_pos h]
      dsimp only
      rw [getD_set_self]
      rw [copyRange_length, List.length_replicate]
      split <;> omega
  · intro xs
    obtain ⟨hInv, hEnd⟩ := foldl_push_back xs (mkVec α 0) (Nat.le_refl 0)
    unfold Inv at hInv
    have h0 : (mkVec α 0).m_end = 0 := rfl
    rw [h0] at hEnd
    omega

/-- Witness for C1 at a concrete full vector. -/
theorem push_back_doubling_growth_witness :
    (push_back (⟨2, 2, [5, 6]⟩ : Vec Nat) 7).m_capacity = max 1 (2 * 2) ∧
    (push_back (⟨2, 2, [5, 6]⟩ : Vec Nat) 7).m_end = 2 + 1 ∧
    (push_back (⟨2, 2, [5, 6]⟩ : Vec Nat) 7).m_storage.getD 2 default = 7 :=
  (push_back_doubling_growth Nat).1 ⟨2, 2, [5, 6]⟩ 7 rfl

/-- Claim C2: the range `insert` grows exactly when `length + k > capacity`,
and then reallocates to exactly `capacity + k`; when the insertion fits and
completes, the capacity is unchanged.  In particular inserting `k ≥ 1`
elements into a full vector (`length == capacity`) yields capacity
`old_capacity + k` exactly. -/
theorem insert_bulk_exact_fit (α : Type) [Inhabited α] :
    (∀ (v : Vec α) (index : Nat) (xs : List α),
        v.m_capacity < v.m_end + xs.length →
        ∃ w : Vec α, insertBulk v index xs = some (w, index) ∧
          w.m_capacity = v.m_capacity + xs.length ∧
          w.m_end = v.m_end + xs.length) ∧
    (∀ (v : Vec α) (index : Nat) (xs : List α) (w : Vec α) (j : Nat),
        insertBulk v index xs = some (w, j) →
        v.m_end + xs.length ≤ v.m_capacity →
        w.m_capacity = v.m_capacity ∧ w.m_end = v.m_end + xs.length) := by
  constructor
  · intro v index xs hc
    simp only [insertBulk, if_pos hc]
    exact ⟨_, rfl, rfl, rfl⟩
  · intro v index xs w j hsome hle
    simp only [insertBulk] at hsome
    rw [if_neg (by omega)] at hsome
    rcases hm : shiftDownLoop index xs.length v.m_storage
        ((v.m_end + (U64 - 1)) % U64) (v.m_end + 2) with _ | s1
    · rw [hm] at hsome
      exact absurd hsome (by simp)
    · rw [hm] at hsome
      simp only [Option.some.injEq, Prod.mk.injEq] at hsome
      obtain ⟨hw, -⟩ := hsome
      rw [← hw]
      exact ⟨rfl, rfl⟩

/-- Witness for C2: inserting two elements at position 1 of a full
length-2 vector reallocates to capacity 4 exactly. -/
theorem insert_bulk_exact_fit_witness :
    ∃ w : Vec Nat, insertBulk (⟨2, 2, [10, 20]⟩ : Vec Nat) 1 [7, 8] = some (w, 1) ∧
      w.m_capacity = 2 + [7, 8].length ∧ w.m_end = 2 + [7, 8].length :=
  (insert_bulk_exact_fit Nat).1 ⟨2, 2, [10, 20]⟩ 1 [7, 8] (by decide)

/-- Claim C5 (code bug): the sufficient-capacity branch of the range
`insert` runs `for (size_type i = m_end - 1; i >= index; --i)` with an
unsigned loop variable, so for insertion index 0 the guard never fails: after
processing slot 0 the variable wraps to `2^64 - 1` and the next read
`m_storage[i]` is out of bounds (undefined behaviour, `none` in the model).
Inserting the same element at index 1 of the same vector completes normally,
showing the failure is specific to index 0. -/
theorem insert_bulk_pos_zero_out_of_bounds :
    insertBulk (⟨2, 4, [10, 20, 0, 0]⟩ : Vec Nat) 0 [99] = none ∧
    insertBulk (⟨2, 4, [10, 20, 0, 0]⟩ : Vec Nat) 1 [99] =
      some (⟨3, 4, [10, 99, 20, 0]⟩, 1) :=
  ⟨rfl, rfl⟩

/-- Claim C4 (counterexample): erasing index 0 of `[1, 2, 3]` removes the
element and shifts correctly, but the returned iterator offset is 2 — the
new `end()` — not 0, although index 0 holds the original successor and was
not the last element; so `erase` does not return an iterator to the element
now occupying `pos`. -/
theorem erase_return_not_successor :
    (erase (⟨3, 3, [1, 2, 3]⟩ : Vec Nat) 0).2 = 2 ∧
    ¬(erase (⟨3, 3, [1, 2, 3]⟩ : Vec Nat) 0).2 = 0 ∧
    (erase (⟨3, 3, [1, 2, 3]⟩ : Vec Nat) 0).1.m_end = 2 ∧
    (erase (⟨3, 3, [1, 2, 3]⟩ : Vec Nat) 0).1.m_storage.getD 0 default = 2 := by
  decide

/-- Claim C4 (amended): for `0 ≤ pos < length`, `erase(pos)` shifts the
suffix left by one slot, decrements the length, keeps the capacity, and
returns an iterator addressing the new `end()` (offset `length - 1`), which
coincides with `pos` only when `pos` was the last element. -/
theorem erase_shifts_returns_new_end (α : Type) [Inhabited α] (v : Vec α) (pos : Nat)
    (hw : Wf v) (hp : pos < v.m_end) :
    (erase v pos).1.m_end = v.m_end - 1 ∧
    (erase v pos).1.m_capacity = v.m_capacity ∧
    (∀ j, j < pos → (erase v pos).1.m_storage.getD j default = v.m_storage.getD j default) ∧
    (∀ j, pos ≤ j → j < v.m_end - 1 →
      (erase v pos).1.m_storage.getD j default = v.m_storage.getD (j + 1) default) ∧
    (erase v pos).2 = v.m_end - 1 := by
  refine ⟨erase_m_end v pos, erase_capacity v pos, ?_, ?_, ?_⟩
  · intro j hj
    rw [erase_getD v pos hw hp, if_neg (by omega)]
  · intro j h1 h2
    rw [erase_getD v pos hw hp, if_pos ⟨h1, h2⟩]
  · rw [erase_snd]
    omega

/-- Witness for the amended C4 at `[1, 2, 3]`, erasing index 1. -/
theorem erase_shifts_returns_new_end_witness :
    (erase (⟨3, 3, [1, 2, 3]⟩ : Vec Nat) 1).1.m_end = 3 - 1 ∧
    (erase (⟨3, 3, [1, 2, 3]⟩ : Vec Nat) 1).2 = 3 - 1 ∧
    (erase (⟨3, 3, [1, 2, 3]⟩ : Vec Nat) 1).1.m_storage.getD 1 default = 3 :=
  have h := erase_shifts_returns_new_end Nat ⟨3, 3, [1, 2, 3]⟩ 1 (by decide) (by decide)
  ⟨h.1, h.2.2.2.2, h.2.2.2.1 1 (by decide) (by decide)⟩

/-- Claim C6: `at(i)` fails with the distinguished out-of-range error
exactly when `i ≥ length`; on success it returns the element stored at
index `i` itself (no clamping or wrapping); and on both paths the vector
state is unchanged. -/
theorem at_out_of_range_iff (α : Type) [Inhabited α] (v : Vec α) (idx : Nat) :
    ((atIdx v idx).1 = Except.error "Index out of range" ↔ v.m_end ≤ idx) ∧
    (idx < v.m_end → (atIdx v idx).1 = Except.ok (v.m_storage.getD idx default)) ∧
    (atIdx v idx).2 = v := by
  unfold atIdx
  by_cases hc : v.m_end ≤ idx
  · rw [if_pos hc]
    exact ⟨⟨fun _ => hc, fun _ => rfl⟩, fun hlt => absurd hc (by omega), rfl⟩
  · rw [if_neg hc]
    exact ⟨⟨fun he => absurd he (by simp), fun hge => absurd hge hc⟩, fun _ => rfl, rfl⟩

/-- Witness for C6: `at(5)` on a length-3 vector errors with the state
unchanged, and `at(1)` returns the stored element. -/
theorem at_out_of_range_iff_witness :
    ((atIdx (⟨3, 3, [1, 2, 3]⟩ : Vec Nat) 5).1 = Except.error "Index out of range" ↔ 3 ≤ 5) ∧
    (atIdx (⟨3, 3, [1, 2, 3]⟩ : Vec Nat) 5).2 = ⟨3, 3, [1, 2, 3]⟩ ∧
    (atIdx (⟨3, 3, [1, 2, 3]⟩ : Vec Nat) 1).1 = Except.ok 2 :=
  have h5 := at_out_of_range_iff Nat ⟨3, 3, [1, 2, 3]⟩ 5
  have h1 := at_out_of_range_iff Nat ⟨3, 3, [1, 2, 3]⟩ 1
  ⟨h5.1, h5.2.2, h1.2.1 (by decide)⟩

/-- Claim C9: the sized constructor `vector(cp)` yields `size() == cp` and
`capacity() == cp`, with all `cp` slots live and default-initialized — not
an empty vector with reserved capacity. -/
theorem sized_ctor_full_length (α : Type) [Inhabited α] (cp : Nat) :
    size (mkVec α cp) = cp ∧ capacity (mkVec α cp) = cp ∧
    (mkVec α cp).m_storage = List.replicate cp default :=
  ⟨rfl, rfl, rfl⟩

/-- Claim C3: `0 ≤ length ≤ capacity` (the lower bound being inherent in
`Nat`) holds after every constructor and is preserved by every operation
invoked with its preconditions satisfied: `push_back`, `pop_back`, single
and range `insert` (when the latter completes), single and range `erase`,
`assign`, `reserve`, `shrink_to_fit`, `clear`, `swap` and copy. -/
theorem length_le_capacity_invariant (α : Type) [Inhabited α] :
    (∀ cp, Inv (mkVec α cp)) ∧
    (∀ xs : List α, Inv (fromList xs)) ∧
    (∀ xs : List α, Inv (fromRange xs)) ∧
    (∀ v : Vec α, Inv v → Inv (copyOf v)) ∧
    (∀ (v : Vec α) (x : α), Inv v → Inv (push_back v x)) ∧
    (∀ v : Vec α, Inv v → Inv (pop_back v)) ∧
    (∀ (v : Vec α) (i : Nat) (x : α), Inv v → i ≤ v.m_end → Inv (insert v i x).1) ∧
    (∀ (v : Vec α) (i : Nat) (xs : List α) (w : Vec α) (j : Nat),
        Inv v → insertBulk v i xs = some (w, j) → Inv w) ∧
    (∀ (v : Vec α) (pos : Nat), Inv v → pos < v.m_end → Inv (erase v pos).1) ∧
    (∀ (v : Vec α) (first last : Nat), Inv v → first ≤ last → last ≤ v.m_end →
        Inv (eraseRange v first last).1) ∧
    (∀ (v : Vec α) (count : Nat) (x : α), Inv v → Inv (assign v count x)) ∧
    (∀ (v : Vec α) (n : Nat), Inv v → Inv (reserve v n)) ∧
    (∀ v : Vec α, Inv v → Inv (shrink_to_fit v)) ∧
    (∀ v : Vec α, Inv v → Inv (clear v)) ∧
    (∀ a b : Vec α, Inv a → Inv b → Inv (swapVec a b).1 ∧ Inv (swapVec a b).2) := by
  refine ⟨fun cp => Nat.le_refl cp, fun xs => Nat.le_refl xs.length,
    fun xs => Nat.le_refl xs.length, fun v h => h, fun v x h => push_back_Inv v x h,
    ?_, fun v i x h _ => insert_Inv v i x h, ?_, ?_, ?_, ?_, ?_, ?_, fun v _ => Nat.zero_le _,
    fun a b ha hb => ⟨hb, ha⟩⟩
  · intro v h
    unfold Inv at *
    unfold pop_back
    split <;> (try dsimp only) <;> omega
  · intro v i xs w j hv hsome
    unfold Inv at *
    simp only [insertBulk] at hsome
    by_cases hc : v.m_capacity < v.m_end + xs.length
    · rw [if_pos hc] at hsome
      simp only [Option.some.injEq, Prod.mk.injEq] at hsome
      obtain ⟨hw, -⟩ := hsome
      rw [← hw]
      dsimp only
      omega
    · rw [if_neg hc] at hsome
      rcases hm : shiftDownLoop i xs.length v.m_storage
          ((v.m_end + (U64 - 1)) % U64) (v.m_end + 2) with _ | s1
      · rw [hm] at hsome
        exact absurd hsome (by simp)
      · rw [hm] at hsome
        simp only [Option.some.injEq, Prod.mk.injEq] at hsome
        obtain ⟨hw, -⟩ := hsome
        rw [← hw]
        dsimp only
        omega
  · intro v pos h _
    unfold Inv at *
    dsimp only [erase]
    omega
  · intro v first last h _ _
    unfold Inv at *
    dsimp only [eraseRange]
    omega
  · intro v count x h
    unfold Inv at *
    simp only [assign]
    split <;> (try dsimp only) <;> omega
  · intro v n h
    unfold Inv at *
    unfold reserve
    split <;> (try dsimp only) <;> omega
  · intro v h
    unfold Inv at *
    unfold shrink_to_fit
    split <;> (try dsimp only) <;> omega

/-- Witness for C3 at concrete states and operations. -/
theorem length_le_capacity_invariant_witness :
    Inv (push_back (⟨2, 2, [5, 6]⟩ : Vec Nat) 7) ∧
    Inv (insert (⟨2, 2, [5, 6]⟩ : Vec Nat) 1 9).1 ∧
    Inv (erase (⟨2, 2, [5, 6]⟩ : Vec Nat) 0).1 ∧
    Inv (mkVec Nat 3) := by
  obtain ⟨h1, h2, h3, h4, h5, h6, h7, h8, h9, h10, h11, h12, h13, h14, h15⟩ :=
    length_le_capacity_invariant Nat
  exact ⟨h5 _ 7 (by decide), h7 _ 1 9 (by decide) (by decide),
    h9 _ 0 (by decide) (by decide), h1 3⟩

/-- Claim C8: for `0 ≤ i ≤ length`, inserting `x` at index `i` and then
erasing index `i` gives back a vector that compares equal (`operator==`,
i.e. same length and same elements) to the original. -/
theorem erase_insert_inverse (α : Type) [Inhabited α] [DecidableEq α]
    (a : Vec α) (i : Nat) (x : α) (hw : Wf a) (hi : i ≤ a.m_end) :
    vecEq (erase (insert a i x).1 i).1 a = true := by
  have hwWf := insert_Wf a i x hw
  have hEnd := insert_m_end a i x
  have hEE : (erase (insert a i x).1 i).1.m_end = a.m_end := by
    rw [erase_m_end, hEnd]
    omega
  unfold vecEq
  rw [hEE, if_neg (not_not_intro rfl)]
  apply eqLoop_eq_true
  intro t ht
  simp only [Nat.zero_add]
  rw [erase_getD _ _ hwWf (by omega)]
  by_cases hti : i ≤ t
  · rw [if_pos ⟨hti, by omega⟩]
    rw [insert_getD a i x hw hi (t + 1) (by omega)]
    rw [if_neg (by omega), if_neg (by omega)]
    simp
  · rw [if_neg (fun hcond => hti hcond.1)]
    rw [insert_getD a i x hw hi t (by omega)]
    rw [if_pos (by omega)]

/-- Witness for C8: inserting 9 at index 1 of `[1, 2, 3]` and erasing
index 1 compares equal to the original. -/
theorem erase_insert_inverse_witness :
    vecEq (erase (insert (⟨3, 3, [1, 2, 3]⟩ : Vec Nat) 1 9).1 1).1 ⟨3, 3, [1, 2, 3]⟩ = true :=
  erase_insert_inverse Nat ⟨3, 3, [1, 2, 3]⟩ 1 9 (by decide) (by decide)

/-- Claim C7: copy construction and copy assignment produce a vector with
the same length, the same capacity (capacity preserved, not just content),
the same element sequence, and a freshly allocated buffer distinct from the
source's, so that any sequence of later element writes through the copy
leaves the source's elements unchanged. -/
theorem copy_deep_isolation (α : Type) [Inhabited α] (h : Heap α) (a c : VecRef)
    (ha : HWf h a) (hc : c.m_storage ≠ a.m_storage) :
    ((copyCtor h a).2.m_end = a.m_end ∧
     (copyCtor h a).2.m_capacity = a.m_capacity ∧
     (copyCtor h a).2.m_storage ≠ a.m_storage ∧
     contentOf (copyCtor h a).1 (copyCtor h a).2 = contentOf h a ∧
     (∀ ws : List (Nat × α),
        contentOf (applyWrites (copyCtor h a).1 (copyCtor h a).2 ws) a = contentOf h a)) ∧
    ((copyAssign h c a false).2.m_end = a.m_end ∧
     (copyAssign h c a false).2.m_capacity = a.m_capacity ∧
     (copyAssign h c a false).2.m_storage ≠ a.m_storage ∧
     contentOf (copyAssign h c a false).1 (copyAssign h c a false).2 = contentOf h a ∧
     (∀ ws : List (Nat × α),
        contentOf (applyWrites (copyAssign h c a false).1 (copyAssign h c a false).2 ws) a =
          contentOf h a)) := by
  obtain ⟨hlt, hle⟩ := ha
  have hCtor : copyCtor h a =
      (⟨h.next + 1, fun j => if j = h.next then
          copyRange (h.buf a.m_storage) (List.replicate a.m_capacity default) 0 0 a.m_end
        else h.buf j⟩,
       ⟨a.m_end, a.m_capacity, h.next⟩) := rfl
  have hAsgn : copyAssign h c a false =
      (⟨h.next + 1, fun j => if j = h.next then
          copyRange (if a.m_storage = c.m_storage then [] else h.buf a.m_storage)
            (List.replicate a.m_capacity default) 0 0 a.m_end
        else if j = c.m_storage then [] else h.buf j⟩,
       ⟨a.m_end, a.m_capacity, h.next⟩) := rfl
  have hsrc : (if a.m_storage = c.m_storage then ([] : List α) else h.buf a.m_storage) =
      h.buf a.m_storage := if_neg (fun he => hc he.symm)
  have hcontent : ∀ (g : Heap α) (b : VecRef), b.m_end = a.m_end →
      g.buf b.m_storage =
        copyRange (h.buf a.m_storage) (List.replicate a.m_capacity default) 0 0 a.m_end →
      contentOf g b = contentOf h a := by
    intro g b hbend hbuf
    unfold contentOf
    rw [hbend, hbuf]
    apply List.map_congr_left
    intro i hi
    rw [List.mem_range] at hi
    rw [copyRange_getD _ _ _ _ _ (by rw [List.length_replicate]; omega),
      if_pos ⟨Nat.zero_le i, by omega⟩]
    simp
  have hwrites : ∀ (g : Heap α) (b : VecRef) (ws : List (Nat × α)),
      b.m_storage ≠ a.m_storage → g.buf a.m_storage = h.buf a.m_storage →
      contentOf (applyWrites g b ws) a = contentOf h a := by
    intro g b ws hne hbuf
    rw [contentOf_congr _ g a (applyWrites_buf_ne _ _ (fun he => hne he.symm) ws _)]
    exact contentOf_congr _ _ _ hbuf
  refine ⟨⟨rfl, rfl, Nat.ne_of_gt hlt, ?_, ?_⟩, ⟨rfl, rfl, Nat.ne_of_gt hlt, ?_, ?_⟩⟩
  · apply hcontent
    · rfl
    · rw [hCtor]
      dsimp only
      rw [if_pos rfl]
  · intro ws
    rw [hCtor]
    apply hwrites
    · exact Nat.ne_of_gt hlt
    · dsimp only
      rw [if_neg (by omega)]
  · apply hcontent
    · rfl
    · rw [hAsgn]
      dsimp only
      rw [if_pos rfl, hsrc]
  · intro ws
    rw [hAsgn]
    apply hwrites
    · exact Nat.ne_of_gt hlt
    · dsimp only
      rw [if_neg (by omega), if_neg (fun he => hc he.symm)]

/-- Witness for C7 on `demoHeap`: the copy of `demoRef` has the source's
content, and a write through the copy leaves the source's content intact. -/
theorem copy_deep_isolation_witness :
    contentOf (copyCtor demoHeap demoRef).1 (copyCtor demoHeap demoRef).2 =
      contentOf demoHeap demoRef ∧
    (copyCtor demoHeap demoRef).2.m_capacity = demoRef.m_capacity ∧
    contentOf (applyWrites (copyCtor demoHeap demoRef).1 (copyCtor demoHeap demoRef).2 [(0, 9)])
        demoRef = contentOf demoHeap demoRef ∧
    contentOf (applyWrites (copyAssign demoHeap demoRefB demoRef false).1
        (copyAssign demoHeap demoRefB demoRef false).2 [(0, 9)]) demoRef =
      contentOf demoHeap demoRef :=
  have h := copy_deep_isolation Nat demoHeap demoRef demoRefB
    ⟨by decide, by decide⟩ (by decide)
  ⟨h.1.2.2.2.1, h.1.2.1, h.1.2.2.2.2 [(0, 9)], h.2.2.2.2.2 [(0, 9)]⟩

/-- Claim C10: self-assignment (`a = a`, where the guard `this != &other`
fails) executes nothing: the heap and the vector — its length, capacity,
buffer and therefore all elements — are unchanged, and the returned
reference is `a` itself. -/
theorem self_assignment_noop (α : Type) [Inhabited α] (h : Heap α) (a : VecRef) :
    copyAssign h a a true = (h, a) ∧
    (copyAssign h a a true).2 = a ∧
    contentOf (copyAssign h a a true).1 (copyAssign h a a true).2 = contentOf h a :=
  ⟨rfl, rfl, rfl⟩

end sc
